import Mathlib

/-!
Shallow embedding of the dbmate migration orchestrator core
(pkg/dbmate/migration.go and pkg/dbmate/driver.go).

Strings are modelled as lists of characters (Go byte strings; all inputs of
interest are ASCII, and UTF-8 byte order agrees with codepoint order, so
lexicographic comparison of character lists models Go string comparison).
Regular expressions of the source are modelled by hand-rolled matchers that
follow RE2 leftmost-first semantics for the concrete patterns involved;
bounded loops of the source are modelled with an explicit fuel argument that
is always sufficient, so every definition computes by kernel reduction.
-/

namespace Dbmate

/-- Str is the model of a Go string: its list of characters. -/
abbrev Str := List Char

/-- goSpace models the RE2 character class backslash-s, which is exactly
tab, newline, form feed, carriage return and space. -/
def goSpace (c : Char) : Bool :=
  c = ' ' || c = '\t' || c = '\n' || c = '\x0c' || c = '\r'

/-- uSpace models Go unicode.IsSpace, used by strings.TrimSpace: the Latin-1
white space characters plus the Unicode White_Space code points. -/
def uSpace (c : Char) : Bool :=
  c = ' ' || c = '\t' || c = '\n' || c = '\x0b' || c = '\x0c' || c = '\r' ||
  c = '\x85' || c = '\xa0' || c = ' ' ||
  (' ' ≤ c && c ≤ ' ') ||
  c = ' ' || c = ' ' || c = ' ' || c = ' ' || c = '　'

/-- ext models the Go slice expression s[b:e]: the characters of s with
index in the interval from b inclusive to e exclusive. -/
def ext (s : Str) (b e : Nat) : Str :=
  (s.take e).drop b

/-- substring models the helper of the source, which returns the empty
string for the sentinel index -1 (modelled as none) and s[b:e] otherwise. -/
def substring (s : Str) : Option (Nat × Nat) → Str
  | none => []
  | some (b, e) => ext s b e

/-- isEmptyLine models the regexp match of a line against
caret backslash-s star dollar: every character is white space. -/
def isEmptyLine (l : Str) : Bool :=
  l.all goSpace

/-- isCommentLine models the regexp match of a line against
caret backslash-s star dash dash: optional white space then two dashes. -/
def isCommentLine (l : Str) : Bool :=
  ((l.dropWhile goSpace).take 2) = ('-' :: '-' :: [])

/-- linesOf models strings.Split(s, newline). -/
def linesOf (s : Str) : List Str :=
  s.splitOn '\n'

/-- statementsPrecedeMigrateBlocks models the source function of the same
name: it splits the text before the first block directive into lines and
reports whether some line is neither empty nor a comment. -/
def statementsPrecedeMigrateBlocks (contents : Str) (firstBlockStart : Nat) : Bool :=
  (linesOf (contents.take firstBlockStart)).any fun l =>
    !(isEmptyLine l || isCommentLine l)

/-- matchSep models the final group of the block-find regexp: a single
space or newline character. -/
def matchSep : Str → Option Nat
  | c :: _ => if c = ' ' || c = '\n' then some 1 else none
  | [] => none

/-- matchSlaveSep models the optional group colon-slave followed by the
separator, with the backtracking of leftmost-first matching: the greedy
branch consuming ":slave" is tried first and the empty branch second. -/
def matchSlaveSep (r : Str) : Option Nat :=
  if r.take 6 = (":slave".toList) then
    match matchSep (r.drop 6) with
    | some t => some (6 + t)
    | none => matchSep r
  else matchSep r

/-- matchKind models the alternation of the directive kinds up and down.
The first characters differ, so no backtracking between branches can occur. -/
def matchKind (r : Str) : Option Nat :=
  if r.take 2 = ("up".toList) then some 2
  else if r.take 4 = ("down".toList) then some 4
  else none

/-- matchFrom models one attempted match of the block-find regexp of
parseMigrationContents at a position that is already known to be a line
start, on the remaining text l.  It returns the match length.  The inner
white-space star is greedy and no white-space character can begin the
literal that follows, so the maximal run is the only candidate. -/
def matchFrom (l : Str) : Option Nat :=
  if l.take 2 = ("--".toList) then
    if ((l.drop 2).drop ((l.drop 2).takeWhile goSpace).length).take 8 = ("migrate:".toList) then
      match matchKind (((l.drop 2).drop ((l.drop 2).takeWhile goSpace).length).drop 8) with
      | some k =>
        match matchSlaveSep (((l.drop 2).drop ((l.drop 2).takeWhile goSpace).length).drop (8 + k)) with
        | some t => some (2 + ((l.drop 2).takeWhile goSpace).length + 8 + k + t)
        | none => none
      | none => none
    else none
  else none

/-- lineStartB holds at the positions where the multi-line anchor caret
matches: at index 0 and directly after a newline. -/
def lineStartB (s : Str) (p : Nat) : Bool :=
  p = 0 || s.getD (p - 1) 'x' = '\n'

/-- findAllGo models the scan of regexp.FindAllIndex: positions are tried
left to right, a match at p yields the pair (p, end) and the scan resumes
at the match end.  The fuel argument bounds the loop; since every step
advances the position by at least one, fuel equal to the text length plus
one is always sufficient. -/
def findAllGo (s : Str) : Nat → Nat → List (Nat × Nat)
  | 0, _ => []
  | fuel + 1, p =>
    if p < s.length then
      if lineStartB s p then
        match matchFrom (s.drop p) with
        | some n => (p, p + n) :: findAllGo s fuel (p + n)
        | none => findAllGo s fuel (p + 1)
      else findAllGo s fuel (p + 1)
    else []

/-- findAll models regexp.FindAllIndex of the block-find regexp over the
whole migration text. -/
def findAll (s : Str) : List (Nat × Nat) :=
  findAllGo s (s.length + 1) 0

/-- mkBlocks models the block-slicing loop of parseMigrationContents: every
block initially extends to the end of the text, and a successor find at
position q truncates the previous block to end q - 1. -/
def mkBlocks (len : Nat) : List Nat → List (Nat × Nat)
  | [] => []
  | p :: [] => (p, len) :: []
  | p :: q :: rest => (p, q - 1) :: mkBlocks len (q :: rest)

/-- anyLineStart reports whether the matcher m succeeds at some position of
s where the multi-line caret anchor matches: index 0 or after a newline. -/
def anyLineStart (m : Str → Bool) (s : Str) : Bool :=
  m s || go s
where
  /-- go scans the proper suffixes that begin directly after a newline. -/
  go : Str → Bool
    | [] => false
    | c :: r => (c = '\n' && m r) || go r

/-- dirHeadLen matches dash dash, greedy white space, then the literal
"migrate:" followed by the given kind literal, returning the consumed
length. -/
def dirHeadLen (kind : Str) (l : Str) : Option Nat :=
  match l with
  | '-' :: '-' :: rest =>
    let w := rest.takeWhile goSpace
    let r2 := rest.drop w.length
    let key := ("migrate:".toList) ++ kind
    if r2.take key.length = key then some (2 + w.length + key.length) else none
  | _ => none

/-- upTailOk models the group (backslash-s star dollar | backslash-s plus
backslash-S plus) in multi-line mode: it succeeds exactly when the rest is
empty or begins with a white-space character. -/
def upTailOk (r : Str) : Bool :=
  r.isEmpty || goSpace (r.headD 'x')

/-- downTailOk models the same group followed by a further multi-line
dollar anchor: the rest is at a line end immediately, contains a newline in
its leading white space, or carries exactly one trailing token that ends at
a line end. -/
def downTailOk (r : Str) : Bool :=
  let w := r.takeWhile goSpace
  let rest := r.drop w.length
  w.contains '\n' || rest.isEmpty ||
    (!w.isEmpty &&
      (let nr := rest.takeWhile fun c => !goSpace c
       let after := rest.drop nr.length
       after.isEmpty || after.headD 'x' = '\n'))

/-- blockMatches models regexp Find over a block string for one of the four
block-classification regexps, given the kind literal and the tail matcher. -/
def blockMatches (kind : Str) (tail : Str → Bool) (s : Str) : Bool :=
  anyLineStart (fun l =>
    match dirHeadLen kind l with
    | some n => tail (l.drop n)
    | none => false) s

/-- upFind models upRegExp.Find being non-nil on a block string. -/
def upFind (s : Str) : Bool :=
  blockMatches ("up".toList) upTailOk s

/-- downFind models downRegExp.Find being non-nil on a block string. -/
def downFind (s : Str) : Bool :=
  blockMatches ("down".toList) downTailOk s

/-- upSlaveFind models upSlaveRegExp.Find being non-nil on a block string. -/
def upSlaveFind (s : Str) : Bool :=
  blockMatches ("up:slave".toList) upTailOk s

/-- downSlaveFind models downSlaveRegExp.Find being non-nil on a block string. -/
def downSlaveFind (s : Str) : Bool :=
  blockMatches ("down:slave".toList) downTailOk s

/-- directiveHeadLen models one match attempt of blockDirectiveRegExp,
caret dash dash white-space star migrate colon (up|down)(:slave)?, which is
anchored to the start of the text (no multi-line flag). -/
def directiveHeadLen (s : Str) : Option Nat :=
  match dirHeadLen [] s with
  | some n =>
    match matchKind (s.drop n) with
    | some k =>
      if (s.drop (n + k)).take 6 = (":slave".toList) then some (n + k + 6)
      else some (n + k)
    | none => none
  | none => none

/-- stripBlockDirective models blockDirectiveRegExp.ReplaceAllString(s, "");
the anchor allows at most one match, at position 0. -/
def stripBlockDirective (s : Str) : Str :=
  match directiveHeadLen s with
  | some n => s.drop n
  | none => s

/-- trimSpace models strings.TrimSpace. -/
def trimSpace (s : Str) : Str :=
  ((s.dropWhile uSpace).reverse.dropWhile uSpace).reverse

/-- splitWsGo models regexp.Split with the pattern backslash-s plus: pieces
between maximal runs of white space, with empty pieces at the ends when the
text begins or ends with white space.  Fuel as in findAllGo. -/
def splitWsGo : Nat → Str → Str → List Str
  | 0, acc, _ => (acc.reverse) :: []
  | _, acc, [] => (acc.reverse) :: []
  | fuel + 1, acc, c :: r =>
    if goSpace c then (acc.reverse) :: splitWsGo fuel [] (r.dropWhile goSpace)
    else splitWsGo fuel (c :: acc) r

/-- splitWs splits a string around maximal white-space runs. -/
def splitWs (s : Str) : List Str :=
  splitWsGo (s.length + 1) [] s

/-- splitColon models regexp.Split with the single-character pattern colon. -/
def splitColon (s : Str) : List Str :=
  s.splitOn ':'

/-- MigOptions models the migrationOptions map.  The Go map is iterated only
through key lookup; insertion is modelled by prepending, so that a later
insertion of the same key shadows an earlier one exactly as map overwrite
does. -/
abbrev MigOptions := List (Str × Str)

/-- optLookup models reading m[k] of a Go map as an optional value. -/
def optLookup (m : MigOptions) (k : Str) : Option Str :=
  (m.find? fun p => p.1 = k).map Prod.snd

/-- optGet models the Go map read m[k], which yields the empty string when
the key is absent. -/
def optGet (m : MigOptions) (k : Str) : Str :=
  (optLookup m k).getD []

/-- transactionOf models migrationOptions.Transaction:
m["transaction"] != "false". -/
def transactionOf (m : MigOptions) : Bool :=
  !(optGet m ("transaction".toList) = ("false".toList))

/-- parseMigrationOptions models the source function of the same name:
strip the directive, trim, split on white space, keep the pairs that split
on colon into exactly two parts. -/
def parseMigrationOptions (s : Str) : MigOptions :=
  let c := trimSpace (stripBlockDirective s)
  if c = [] then []
  else
    (splitWs c).foldl
      (fun m pair =>
        match splitColon pair with
        | k :: v :: [] => (k, v) :: m
        | _ => m)
      []

/-- Migration models the Migration struct: raw block contents and options. -/
structure Migration where
  contents : Str
  options : MigOptions
deriving DecidableEq

/-- newMigration models NewMigration(): empty contents, empty options. -/
def newMigration : Migration :=
  { contents := [], options := [] }

/-- ParseErr enumerates the parse error values of the source. -/
inductive ParseErr where
  | missingUp
  | duplicateBlock
  | unexpectedStmt
deriving DecidableEq

/-- ParsedFile is the four-block result of parseMigrationContents. -/
structure ParsedFile where
  up : Migration
  down : Migration
  upSlave : Migration
  downSlave : Migration
deriving DecidableEq

/-- setBlock models one of the four classification steps of the block loop:
when the block regexp matches, a duplicate is an error, otherwise the slot
is filled with the block text and its parsed options. -/
def setBlock (cond : Bool) (cur : Migration) (t : Str) : Except ParseErr Migration :=
  if cond then
    if cur.contents = [] then Except.ok { contents := t, options := parseMigrationOptions t }
    else Except.error ParseErr.duplicateBlock
  else Except.ok cur

/-- classifyGo models the block loop of parseMigrationContents: each block
string is tested against the four regexps in the order up, down, up:slave,
down:slave, with the duplicate check before each assignment. -/
def classifyGo (s : Str) :
    List (Nat × Nat) → Migration → Migration → Migration → Migration →
    Except ParseErr (Migration × Migration × Migration × Migration)
  | [], up, down, us, ds => Except.ok (up, down, us, ds)
  | b :: rest, up, down, us, ds =>
    let t := ext s b.1 b.2
    match setBlock (upFind t) up t with
    | Except.error e => Except.error e
    | Except.ok up' =>
      match setBlock (downFind t) down t with
      | Except.error e => Except.error e
      | Except.ok down' =>
        match setBlock (upSlaveFind t) us t with
        | Except.error e => Except.error e
        | Except.ok us' =>
          match setBlock (downSlaveFind t) ds t with
          | Except.error e => Except.error e
          | Except.ok ds' => classifyGo s rest up' down' us' ds'

/-- parseMigrationContents models the source function of the same name:
find the block directives (none is the missing up error), slice the blocks,
classify them (upholding the duplicate check), then require an up block and
an admissible prefix, in the order of the source. -/
def parseMigrationContents (contents : Str) : Except ParseErr ParsedFile :=
  match findAll contents with
  | [] => Except.error ParseErr.missingUp
  | (p0, e0) :: tail =>
    match classifyGo contents (mkBlocks contents.length (((p0, e0) :: tail).map Prod.fst))
        newMigration newMigration newMigration newMigration with
    | Except.error e => Except.error e
    | Except.ok (up, down, us, ds) =>
      if up.contents = [] then Except.error ParseErr.missingUp
      else if statementsPrecedeMigrateBlocks contents p0 then Except.error ParseErr.unexpectedStmt
      else Except.ok { up := up, down := down, upSlave := us, downSlave := ds }

/-- replaceAllGo models the scan of strings.ReplaceAll: at each position,
when old is a prefix the replacement is emitted and the scan advances past
old, otherwise one character is copied.  Every step consumes at least one
character of a non-empty text when old is non-empty, so fuel equal to the
text length plus one suffices; the callers below always pass a non-empty
old of the shape open-brace open-brace key close-brace close-brace. -/
def replaceAllGo (old new : Str) : Nat → Str → Str
  | 0, s => s
  | _, [] => []
  | fuel + 1, c :: r =>
    if !old.isEmpty && (c :: r).take old.length = old then
      new ++ replaceAllGo old new fuel ((c :: r).drop old.length)
    else c :: replaceAllGo old new fuel r

/-- replaceAll models strings.ReplaceAll(s, old, new) for non-empty old. -/
def replaceAll (s old new : Str) : Str :=
  replaceAllGo old new (s.length + 1) s

/-- wildcardToken builds the literal fmt.Sprintf pattern for a wildcard
key: two opening braces, the key, two closing braces. -/
def wildcardToken (k : Str) : Str :=
  ("\x7b\x7b".toList) ++ k ++ ("\x7d\x7d".toList)

/-- Wildcards models the map returned by Driver.GetWildcards.  Go map
iteration order is unspecified; the model fixes it as the list order, which
realises one admissible schedule of the source loop. -/
abbrev Wildcards := List (Str × Str)

/-- contentsReplaced models Migration.ContentsReplaced: when replacement is
enabled and the wildcard map is non-empty, strings.ReplaceAll is applied
successively for each entry in iteration order; otherwise the contents are
returned unchanged. -/
def contentsReplaced (m : Migration) (w : Wildcards) (doReplacement : Bool) : Str :=
  if doReplacement then
    if w.length > 0 then
      w.foldl (fun acc kv => replaceAll acc (wildcardToken kv.1) kv.2) m.contents
    else m.contents
  else m.contents

/-- specSimultaneousGo scans the contents once, replacing at each position
the token of the first wildcard entry whose pattern is a prefix there. -/
def specSimultaneousGo (w : Wildcards) : Nat → Str → Str
  | 0, s => s
  | _, [] => []
  | fuel + 1, c :: r =>
    match w.find? (fun kv => (c :: r).take (wildcardToken kv.1).length = wildcardToken kv.1) with
    | some kv => kv.2 ++ specSimultaneousGo w fuel ((c :: r).drop (wildcardToken kv.1).length)
    | none => c :: specSimultaneousGo w fuel r

/-- specSimultaneousReplace is modelled from the spec words, for refinement
comparison with contentsReplaced: replace every literal occurrence of a
braced key with its mapped value, in a single simultaneous pass, leaving
tokens whose identifier is not a key intact. -/
def specSimultaneousReplace (w : Wildcards) (s : Str) : Str :=
  specSimultaneousGo w (s.length + 1) s

/-- lexLe is byte-wise lexicographic order on strings, the order of Go
sort.Strings. -/
def lexLe : Str → Str → Bool
  | [], _ => true
  | _ :: _, [] => false
  | a :: as, b :: bs => a < b || (a = b && lexLe as bs)

/-- LexLeR is lexLe as a relation, for use with insertion sort. -/
def LexLeR (a b : Str) : Prop :=
  lexLe a b = true

instance : DecidableRel LexLeR := fun a b => instDecidableEqBool (lexLe a b) true

/-- sortStrings models Go sort.Strings.  The Go sort is an unstable
comparison sort, but equal strings are indistinguishable, so its output is
the unique lexicographically sorted arrangement of the input, realised here
by insertion sort. -/
def sortStrings (l : List Str) : List Str :=
  List.insertionSort LexLeR l

/-- DirEntry models an os.ReadDir entry: a name and a directory flag. -/
structure DirEntry where
  name : Str
  isDir : Bool
deriving DecidableEq

/-- MigErr enumerates the orchestrator error values the models below reach. -/
inductive MigErr where
  | migrationDirNotFound
  | migrationNotFound
  | noMigrationFiles
  | noRollback
  | noRollbackSlaves
  | parseFailed (e : ParseErr)
deriving DecidableEq

instance {e a : Type} [DecidableEq e] [DecidableEq a] : DecidableEq (Except e a) := fun x y =>
  match x, y with
  | Except.ok a, Except.ok b =>
    if h : a = b then isTrue (by rw [h]) else isFalse (by simp [h])
  | Except.error a, Except.error b =>
    if h : a = b then isTrue (by rw [h]) else isFalse (by simp [h])
  | Except.ok _, Except.error _ => isFalse (by simp)
  | Except.error _, Except.ok _ => isFalse (by simp)

/-- dotSqlTail models the regexp fragment dot star backslash-dot sql dollar
with no multi-line flag: the last four characters are ".sql" and the
characters before them contain no newline (RE2 dot excludes newline). -/
def dotSqlTail (r : Str) : Bool :=
  decide (4 ≤ r.length) && r.drop (r.length - 4) = (".sql".toList) &&
    (r.take (r.length - 4)).all fun c => !(c = '\n')

/-- migrationFileMatch models migrationFileRegexp, caret backslash-d dot
star backslash-dot sql dollar: a leading ASCII digit then a ".sql" tail. -/
def migrationFileMatch : Str → Bool
  | [] => false
  | c :: rest => c.isDigit && dotSqlTail rest

/-- versionFileMatch models the regexp built by findMigrationFile, caret
QuoteMeta(v) dot star backslash-dot sql dollar: the literal version as a
prefix then a ".sql" tail. -/
def versionFileMatch (v : Str) (name : Str) : Bool :=
  name.take v.length = v && dotSqlTail (name.drop v.length)

/-- findMigrationFiles models the source function of the same name over a
directory listing (none models a failed read): keep the non-directory
entries whose names match, then sort lexicographically. -/
def findMigrationFiles (dir : Option (List DirEntry)) (keep : Str → Bool) :
    Except MigErr (List Str) :=
  match dir with
  | none => Except.error MigErr.migrationDirNotFound
  | some entries =>
    Except.ok (sortStrings ((entries.filter fun e => !e.isDir && keep e.name).map DirEntry.name))

/-- findMigrationFile models the source function of the same name: the
first (after sorting) file whose name matches the quoted version pattern.
The source panics on an empty version; callers guard it, and the model is
only invoked with a non-empty version. -/
def findMigrationFile (dir : Option (List DirEntry)) (v : Str) : Except MigErr Str :=
  match findMigrationFiles dir (versionFileMatch v) with
  | Except.error e => Except.error e
  | Except.ok [] => Except.error MigErr.migrationNotFound
  | Except.ok (f :: _) => Except.ok f

/-- migrationVersion models regexp FindString of caret backslash-d plus:
the maximal run of ASCII digits at the start of the name, empty when the
name does not begin with a digit. -/
def migrationVersion (name : Str) : Str :=
  name.takeWhile Char.isDigit

/-- WaitEv is one observable step of the wait controller: a Ping attempt
with its outcome, or a sleep of one WaitInterval. -/
inductive WaitEv where
  | ping (ok : Bool)
  | sleep
deriving DecidableEq

/-- waitGo models the retry loop of DB.wait for one driver: for i from 0,
while i < waitTimeout, sleep one interval, ping again, record success, and
always continue to the next iteration (the source has no early exit).  The
attempt counter k indexes the pings function; lastIdx tracks the attempt
whose error the err variable holds.  Fuel as in findAllGo: the position i
advances by waitInterval each step, so waitTimeout + 1 fuel suffices
whenever waitInterval is at least 1 (with interval 0 the source loops
forever). -/
def waitGo (pings : Nat → Bool) (waitInterval waitTimeout : Nat) :
    Nat → Nat → Nat → Bool → Nat → (Bool × Nat × List WaitEv)
  | 0, _, _, success, lastIdx => (success, lastIdx, [])
  | fuel + 1, i, k, success, lastIdx =>
    if i < waitTimeout then
      let r := pings k
      let next := waitGo pings waitInterval waitTimeout fuel (i + waitInterval) (k + 1) (success || r) k
      (next.1, next.2.1, WaitEv.sleep :: WaitEv.ping r :: next.2.2)
    else (success, lastIdx, [])

/-- waitOne models DB.wait for a single driver: an initial ping, then on
failure the full retry loop; the result is ok on success and otherwise the
index of the attempt whose error CantConnect wraps. -/
def waitOne (pings : Nat → Bool) (waitInterval waitTimeout : Nat) :
    Except Nat Unit × List WaitEv :=
  let r0 := pings 0
  if r0 then (Except.ok (), (WaitEv.ping true) :: [])
  else
    let out := waitGo pings waitInterval waitTimeout (waitTimeout + 1) 0 1 false 0
    (if out.1 then Except.ok () else Except.error out.2.1,
     WaitEv.ping false :: out.2.2)

/-- Drv tags the database handles of the orchestrator: the primary or the
replica of a given index. -/
inductive Drv where
  | master
  | slave (i : Nat)
deriving DecidableEq

/-- getAllDrivers models DB.GetAllDrivers: the primary then every replica. -/
def getAllDrivers (n : Nat) : List Drv :=
  Drv.master :: (List.range n).map Drv.slave

/-- getSlaveDrivers models DB.GetSlaveDrivers: the replicas in index order. -/
def getSlaveDrivers (n : Nat) : List Drv :=
  (List.range n).map Drv.slave

/-- dropSequence models the driver list Drop iterates over: GetAllDrivers
(primary plus replicas) with GetSlaveDrivers appended once more. -/
def dropSequence (n : Nat) : List Drv :=
  getAllDrivers n ++ getSlaveDrivers n

/-- runDrops models the drop loop: DropDatabase on each driver in order,
stopping at the first failure.  It returns the outcome and the list of
drivers DropDatabase was invoked on. -/
def runDrops (fails : Drv → Bool) : List Drv → Except Drv Unit × List Drv
  | [] => (Except.ok (), [])
  | d :: rest =>
    if fails d then (Except.error d, (d) :: [])
    else
      let out := runDrops fails rest
      (out.1, d :: out.2)

/-- dropModel models DB.Drop with WaitBefore false: the drop loop over
dropSequence for n replicas. -/
def dropModel (n : Nat) (fails : Drv → Bool) : Except Drv Unit × List Drv :=
  runDrops fails (dropSequence n)

/-- MigEv is one observable database mutation or file parse of the migrate
loop: parsing a migration file, executing a block's contents on a handle
(inTx records the per-block transaction option), and recording a version. -/
inductive MigEv where
  | parse (name : Str)
  | exec (d : Drv) (inTx : Bool) (contents : Str)
  | insert (d : Drv) (v : Str)
  | delete (d : Drv) (v : Str)
deriving DecidableEq

/-- migrateGo models the per-file loop of DB.migrate (success path of the
database calls; parse errors abort as in the source).  For each file: the
version is the leading digit run of the name; applyToMaster holds when the
primary has not applied it; applyToSlaves collects the replica indices that
have not; a file applied everywhere is skipped before being parsed.  A
processed file is parsed, then the up:slave block is executed and the
version inserted on every replica in index order - the source iterates over
all replicas, not over applyToSlaves - and then, when applyToMaster holds,
the up block is executed and the version inserted on the primary. -/
def migrateGo (applied : List Str) (appliedSlaves : List (List Str)) :
    List (Str × Str) → Except MigErr Unit × List MigEv
  | [] => (Except.ok (), [])
  | (name, contents) :: rest =>
    let ver := migrationVersion name
    let applyToMaster := !applied.contains ver
    let applyToSlaves :=
      (List.range appliedSlaves.length).filter fun i =>
        !(appliedSlaves.getD i []).contains ver
    if !applyToMaster && applyToSlaves.isEmpty then
      migrateGo applied appliedSlaves rest
    else
      match parseMigrationContents contents with
      | Except.error e => (Except.error (MigErr.parseFailed e), (MigEv.parse name) :: [])
      | Except.ok r =>
        let slaveEvs :=
          (List.range appliedSlaves.length).flatMap fun i =>
            MigEv.exec (Drv.slave i) (transactionOf r.upSlave.options) r.upSlave.contents ::
            MigEv.insert (Drv.slave i) ver :: []
        let masterEvs :=
          if applyToMaster then
            MigEv.exec Drv.master (transactionOf r.up.options) r.up.contents ::
            MigEv.insert Drv.master ver :: []
          else []
        let out := migrateGo applied appliedSlaves rest
        (out.1, MigEv.parse name :: (slaveEvs ++ masterEvs ++ out.2))

/-- migrateModel models DB.migrate after the sorted file list is read: an
empty list is NoMigrationFiles, otherwise the per-file loop runs. -/
def migrateModel (files : List (Str × Str)) (applied : List Str)
    (appliedSlaves : List (List Str)) : Except MigErr Unit × List MigEv :=
  if files.isEmpty then (Except.error MigErr.noMigrationFiles, [])
  else migrateGo applied appliedSlaves files

/-- rollbackModel models DB.Rollback (success path of the database calls).
Inputs: the migrations directory listing, the file contents by name, the
single most recent version of the primary and of each replica as
SelectMigrations with limit 1 returns them.  The source reads the primary's
latest version, locates its file, then checks every replica's latest
version against it before anything is executed; only then is the file
parsed, the down block run on the primary, and the down:slave block run on
every replica in index order, deleting the version everywhere. -/
def rollbackModel (dir : Option (List DirEntry)) (fileContents : Str → Str)
    (masterLatest : Option Str) (slaveLatests : List (Option Str)) :
    Except MigErr Unit × List MigEv :=
  let latest := masterLatest.getD []
  if latest = [] then (Except.error MigErr.noRollback, [])
  else
    match findMigrationFile dir latest with
    | Except.error e => (Except.error e, [])
    | Except.ok filename =>
      if slaveLatests.any (fun o =>
          match o with
          | some w => !(w = latest)
          | none => false) then
        (Except.error MigErr.noRollbackSlaves, [])
      else
        match parseMigrationContents (fileContents filename) with
        | Except.error e => (Except.error (MigErr.parseFailed e), [])
        | Except.ok r =>
          let masterEvs :=
            MigEv.exec Drv.master (transactionOf r.down.options) r.down.contents ::
            MigEv.delete Drv.master latest :: []
          let slaveEvs :=
            (List.range slaveLatests.length).flatMap fun i =>
              MigEv.exec (Drv.slave i) (transactionOf r.downSlave.options) r.downSlave.contents ::
              MigEv.delete (Drv.slave i) latest :: []
          (Except.ok (), masterEvs ++ slaveEvs)

/-- blockSpans is the list of block ranges parseMigrationContents slices,
derived from the block-find matches. -/
def blockSpans (s : Str) : List (Nat × Nat) :=
  mkBlocks s.length ((findAll s).map Prod.fst)

/-- blockTexts is the list of block contents, in file order. -/
def blockTexts (s : Str) : List Str :=
  (blockSpans s).map fun b => ext s b.1 b.2

/-- prefixText is the text before the first block directive (empty when
there is none). -/
def prefixText (s : Str) : Str :=
  s.take ((findAll s).headD (0, 0)).1

/-- joinNl concatenates block contents with a single newline between
consecutive blocks. -/
def joinNl : List Str → Str
  | [] => []
  | b :: [] => b
  | b :: rest => b ++ '\n' :: joinNl rest

/-- badPrefix holds when the text has a block directive and some line
before the first directive is neither empty nor a comment. -/
def badPrefix (s : Str) : Bool :=
  match findAll s with
  | [] => false
  | (p, _) :: _ => statementsPrecedeMigrateBlocks s p

end Dbmate

namespace Dbmate

/-- C10: migrationOptions.Transaction() is false exactly when the options
map binds the key "transaction" to the string "false"; an absent key or any
other value yields true. -/
theorem transactionOf_eq_false_iff (m : MigOptions) :
    transactionOf m = false ↔ optLookup m ("transaction".toList) = some ("false".toList) := by
  unfold transactionOf optGet
  cases h : optLookup m ("transaction".toList) with
  | none =>
    simp only [h, Option.getD_none]
    simp [show ¬(([] : Str) = ("false".toList)) from by decide]
  | some v =>
    simp only [h, Option.getD_some]
    simp

/-- C3 (code evaluated at the failing input): with one replica and no
DropDatabase failure, Drop invokes DropDatabase on the primary once and on
replica 0 twice, because the driver list already containing the replicas is
extended by the replica list a second time. -/
theorem dropModel_drops_slave_twice :
    dropModel 1 (fun _ => false) =
      (Except.ok (), Drv.master :: Drv.slave 0 :: Drv.slave 0 :: []) ∧
    (dropModel 1 (fun _ => false)).2.count (Drv.slave 0) = 2 :=
  ⟨rfl, rfl⟩

/-- C4 (code evaluated at the failing input): with WaitInterval 1 and
WaitTimeout 3, when the initial Ping fails and every retry succeeds, the
wait controller still performs all three sleeps and all three retries
before returning success, instead of stopping after the first successful
attempt. -/
theorem waitOne_runs_full_timeout_after_success :
    waitOne (fun k => decide (1 ≤ k)) 1 3 =
      (Except.ok (),
       WaitEv.ping false :: WaitEv.sleep :: WaitEv.ping true :: WaitEv.sleep ::
       WaitEv.ping true :: WaitEv.sleep :: WaitEv.ping true :: []) ∧
    (waitOne (fun k => decide (1 ≤ k)) 1 3).2.count WaitEv.sleep = 3 :=
  ⟨rfl, rfl⟩

/-- C1 (code evaluated at the failing input): one pending file whose
version 001 is applied on replica 0 but not on replica 1 and applied on the
primary; the migrate loop nevertheless executes the up:slave block and
inserts the version on replica 0 as well, because it iterates over all
replicas instead of over applyToSlaves. -/
theorem migrate_executes_on_applied_slave :
    MigEv.insert (Drv.slave 0) (("001").toList) ∈
      (migrateModel ((("001_a.sql").toList, ("-- migrate:up\nselect 1;\n-- migrate:up:slave\nselect 2;\n").toList) :: [])
        (("001").toList :: []) ((("001").toList :: []) :: [] :: [])).2 ∧
    MigEv.exec (Drv.slave 0) true (("-- migrate:up:slave\nselect 2;\n").toList) ∈
      (migrateModel ((("001_a.sql").toList, ("-- migrate:up\nselect 1;\n-- migrate:up:slave\nselect 2;\n").toList) :: [])
        (("001").toList :: []) ((("001").toList :: []) :: [] :: [])).2 := by
  decide

/-- C2: when the primary's most recent applied version is v, its migration
file is found, and some replica's most recent applied version is a w
different from v, Rollback returns NoRollbackSlaves and performs no
mutation: no block is executed and no version row is deleted anywhere. -/
theorem rollback_divergent_slave_no_mutation
    (dir : Option (List DirEntry)) (fc : Str → Str) (v : Str)
    (sl : List (Option Str)) (w fname : Str)
    (hv : v ≠ []) (hf : findMigrationFile dir v = Except.ok fname)
    (hmem : some w ∈ sl) (hw : w ≠ v) :
    rollbackModel dir fc (some v) sl =
      (Except.error MigErr.noRollbackSlaves, []) := by
  have hany : (sl.any fun o =>
      match o with
      | some u => !(u = v)
      | none => false) = true := by
    refine List.any_eq_true.mpr ⟨some w, hmem, ?_⟩
    simp [hw]
  simp [rollbackModel, hv, hf, hany]

/-- Helper for C9: a version applied on the primary and on every replica
makes the migrate loop take the skip branch for every file of that name, so
no parse event for the name can appear in the trace. -/
theorem migrateGo_no_parse (applied : List Str) (appliedSlaves : List (List Str))
    (name : Str)
    (hM : migrationVersion name ∈ applied)
    (hS : ∀ s ∈ appliedSlaves, migrationVersion name ∈ s) :
    ∀ files, MigEv.parse name ∉ (migrateGo applied appliedSlaves files).2 := by
  intro files
  induction files with
  | nil => simp [migrateGo]
  | cons f rest ih =>
    obtain ⟨n, c⟩ := f
    by_cases hn : n = name
    · subst hn
      have h1 : applied.contains (migrationVersion n) = true := by
        simpa using hM
      have hfil : ((List.range appliedSlaves.length).filter fun i =>
          !(appliedSlaves.getD i []).contains (migrationVersion n)) = [] := by
        rw [List.filter_eq_nil_iff]
        intro i hi
        rw [List.mem_range] at hi
        have hm : migrationVersion n ∈ appliedSlaves[i]?.getD [] := by
          rw [List.getElem?_eq_getElem hi]
          exact hS _ (List.getElem_mem hi)
        simp [hm]
      simp only [migrateGo]
      split
      · exact ih
      · rename_i hfalse
        exact absurd (by rw [h1, hfil]; rfl) hfalse
    · simp only [migrateGo]
      split
      · exact ih
      · split
        · simp [MigEv.parse.injEq, Ne.symm hn]
        · intro hmem
          rcases List.mem_cons.mp hmem with h | h
          · exact hn (MigEv.parse.inj h.symm)
          · rcases List.mem_append.mp h with h | h
            · rcases List.mem_append.mp h with h | h
              · rcases List.mem_flatMap.mp h with ⟨i, _, hi⟩
                simp at hi
              · by_cases hb : (!applied.contains (migrationVersion n)) = true <;>
                  simp [hb] at h
            · exact ih h

/-- C9: a migration file whose version is applied on the primary and on
every replica is skipped before being parsed, so its contents (even
syntactically invalid ones) never produce a parse event or a parse error
during Migrate. -/
theorem migrate_skips_fully_applied
    (files : List (Str × Str)) (applied : List Str) (appliedSlaves : List (List Str))
    (name contents : Str)
    (_hmem : (name, contents) ∈ files)
    (hM : migrationVersion name ∈ applied)
    (hS : ∀ s ∈ appliedSlaves, migrationVersion name ∈ s) :
    MigEv.parse name ∉ (migrateModel files applied appliedSlaves).2 := by
  unfold migrateModel
  split
  · simp
  · exact migrateGo_no_parse applied appliedSlaves name hM hS files

/-- C9 witness: a file of invalid contents whose version 001 is applied on
the primary and on both replicas is never parsed. -/
theorem migrate_skips_fully_applied_witness :
    MigEv.parse (("001_a.sql").toList) ∉
      (migrateModel ((("001_a.sql").toList, ("garbage").toList) :: [])
        (("001").toList :: [])
        ((("001").toList :: []) :: (("001").toList :: []) :: [])).2 :=
  migrate_skips_fully_applied _ _ _ _ (("garbage").toList)
    (by decide) (by decide) (by decide)

/-- Helper for C6: the only error setBlock can produce is the duplicate
block error. -/
theorem setBlock_error (cond : Bool) (cur : Migration) (t : Str) (e : ParseErr)
    (h : setBlock cond cur t = Except.error e) : e = ParseErr.duplicateBlock := by
  unfold setBlock at h
  split at h
  · split at h
    · exact absurd h (by simp)
    · exact (Except.error.inj h).symm
  · exact absurd h (by simp)

/-- Helper for C6: the block-classification loop can only fail with the
duplicate block error. -/
theorem classifyGo_error (s : Str) :
    ∀ (blocks : List (Nat × Nat)) (up down us ds : Migration) (e : ParseErr),
    classifyGo s blocks up down us ds = Except.error e → e = ParseErr.duplicateBlock := by
  intro blocks
  induction blocks with
  | nil => intro up down us ds e h; exact absurd h (by simp [classifyGo])
  | cons b rest ih =>
    intro up down us ds e h
    simp only [classifyGo] at h
    cases h1 : setBlock (upFind (ext s b.1 b.2)) up (ext s b.1 b.2) with
    | error e1 => rw [h1] at h; cases h; exact setBlock_error _ _ _ _ h1
    | ok up1 =>
      rw [h1] at h
      cases h2 : setBlock (downFind (ext s b.1 b.2)) down (ext s b.1 b.2) with
      | error e2 => rw [h2] at h; cases h; exact setBlock_error _ _ _ _ h2
      | ok d1 =>
        rw [h2] at h
        cases h3 : setBlock (upSlaveFind (ext s b.1 b.2)) us (ext s b.1 b.2) with
        | error e3 => rw [h3] at h; cases h; exact setBlock_error _ _ _ _ h3
        | ok u1 =>
          rw [h3] at h
          cases h4 : setBlock (downSlaveFind (ext s b.1 b.2)) ds (ext s b.1 b.2) with
          | error e4 => rw [h4] at h; cases h; exact setBlock_error _ _ _ _ h4
          | ok dd1 =>
            rw [h4] at h
            exact ih _ _ _ _ _ h

/-- C6 (amended): when some line strictly before the first block directive
is neither empty nor a comment, parseMigrationContents returns an error; it
is the unexpected statement error whenever the block classification does
not already fail with the duplicate block error or the missing up error,
which the source checks first. -/
theorem parse_bad_prefix_unexpected (s : Str)
    (hbad : badPrefix s = true)
    (hd : parseMigrationContents s ≠ Except.error ParseErr.duplicateBlock)
    (hm : parseMigrationContents s ≠ Except.error ParseErr.missingUp) :
    parseMigrationContents s = Except.error ParseErr.unexpectedStmt := by
  obtain ⟨p0, e0, tail, hfa⟩ : ∃ p0 e0 tail, findAll s = (p0, e0) :: tail := by
    unfold badPrefix at hbad
    cases hfa : findAll s with
    | nil => rw [hfa] at hbad; cases hbad
    | cons f t =>
      obtain ⟨a, b⟩ := f
      exact ⟨a, b, t, rfl⟩
  have hstmt : statementsPrecedeMigrateBlocks s p0 = true := by
    unfold badPrefix at hbad
    rw [hfa] at hbad
    exact hbad
  simp only [parseMigrationContents, hfa] at hd hm ⊢
  cases hcl : classifyGo s (mkBlocks s.length (((p0, e0) :: tail).map Prod.fst))
      newMigration newMigration newMigration newMigration with
  | error e =>
    rw [hcl] at hd
    exact absurd (by rw [classifyGo_error s _ _ _ _ _ _ hcl]) hd
  | ok r =>
    obtain ⟨up, down, us, ds⟩ := r
    simp only [hcl] at hm ⊢
    by_cases hup : up.contents = []
    · rw [if_pos hup] at hm
      exact absurd rfl hm
    · rw [if_neg hup] at hm ⊢
      rw [if_pos hstmt]

/-- C6 counterexample: the content has the non-comment line X before the
first directive, yet the parser reports the duplicate block error, not the
unexpected statement error, because the file also has two up blocks and
that check runs first. -/
theorem parse_bad_prefix_not_unexpected_cex :
    badPrefix (("X\n-- migrate:up\nA\n-- migrate:up\nB\n").toList) = true ∧
    parseMigrationContents (("X\n-- migrate:up\nA\n-- migrate:up\nB\n").toList) =
      Except.error ParseErr.duplicateBlock ∧
    parseMigrationContents (("X\n-- migrate:up\nA\n-- migrate:up\nB\n").toList) ≠
      Except.error ParseErr.unexpectedStmt := by
  refine ⟨by decide, by decide, by decide⟩

/-- C6 witness: a statement before a well-formed single up block yields the
unexpected statement error. -/
theorem parse_bad_prefix_unexpected_witness :
    parseMigrationContents (("X\n-- migrate:up\nA\n").toList) =
      Except.error ParseErr.unexpectedStmt :=
  parse_bad_prefix_unexpected _ (by decide) (by decide) (by decide)

/-- Helper for C7: lexLe is total. -/
theorem lexLe_total : ∀ a b : Str, (lexLe a b || lexLe b a) = true := by
  intro a
  induction a with
  | nil => intro b; simp [lexLe]
  | cons x xs ih =>
    intro b
    cases b with
    | nil => simp [lexLe]
    | cons y ys =>
      simp only [lexLe, Bool.or_eq_true, Bool.and_eq_true, decide_eq_true_eq]
      rcases lt_trichotomy x y with h | h | h
      · exact Or.inl (Or.inl h)
      · subst h
        rcases (by simpa using ih ys : lexLe xs ys = true ∨ lexLe ys xs = true) with h2 | h2
        · exact Or.inl (Or.inr ⟨rfl, h2⟩)
        · exact Or.inr (Or.inr ⟨rfl, h2⟩)
      · exact Or.inr (Or.inl h)

/-- Helper for C7: lexLe is transitive. -/
theorem lexLe_trans : ∀ a b c : Str, lexLe a b = true → lexLe b c = true → lexLe a c = true := by
  intro a
  induction a with
  | nil => intro b c _ _; rfl
  | cons x xs ih =>
    intro b c hab hbc
    cases b with
    | nil => simp [lexLe] at hab
    | cons y ys =>
      cases c with
      | nil => simp [lexLe] at hbc
      | cons z zs =>
        simp only [lexLe, Bool.or_eq_true, Bool.and_eq_true, decide_eq_true_eq] at hab hbc ⊢
        rcases hab with h1 | ⟨h1, h1'⟩
        · rcases hbc with h2 | ⟨h2, h2'⟩
          · exact Or.inl (lt_trans h1 h2)
          · exact Or.inl (h2 ▸ h1)
        · rcases hbc with h2 | ⟨h2, h2'⟩
          · exact Or.inl (h1 ▸ h2)
          · exact Or.inr ⟨h1.trans h2, ih ys zs h1' h2'⟩

instance : IsTotal Str LexLeR :=
  ⟨fun a b => by
    have h := lexLe_total a b
    simp only [LexLeR]
    simpa using h⟩

instance : IsTrans Str LexLeR :=
  ⟨fun a b c hab hbc => lexLe_trans a b c hab hbc⟩

/-- Helper for C7: a list of elements satisfying q that is a prefix of l is
no longer than the maximal such prefix, takeWhile q l. -/
theorem takeWhile_longest {α : Type} (q : α → Bool) :
    ∀ (pre post : List α), pre.all q = true →
      pre.length ≤ ((pre ++ post).takeWhile q).length := by
  intro pre
  induction pre with
  | nil => intro post _; simp
  | cons a l ih =>
    intro post hall
    simp only [List.all_cons, Bool.and_eq_true] at hall
    simp only [List.cons_append, List.takeWhile_cons, hall.1, if_true, List.length_cons]
    exact Nat.succ_le_succ (ih post hall.2)

/-- C7: findMigrationFiles fails with the directory error when the read
fails, and otherwise returns exactly the non-directory entries whose names
match the migration pattern, sorted lexicographically; and migrationVersion
is the longest leading run of decimal digits of the name. -/
theorem findMigrationFiles_spec :
    (findMigrationFiles none migrationFileMatch = Except.error MigErr.migrationDirNotFound) ∧
    (∀ entries : List DirEntry, ∃ out,
      findMigrationFiles (some entries) migrationFileMatch = Except.ok out ∧
      List.Sorted LexLeR out ∧
      out.Perm ((entries.filter fun e => !e.isDir && migrationFileMatch e.name).map DirEntry.name)) ∧
    (∀ name : Str,
      (∃ t, name = migrationVersion name ++ t) ∧
      (migrationVersion name).all Char.isDigit = true ∧
      (∀ p t, name = p ++ t → p.all Char.isDigit = true →
        p.length ≤ (migrationVersion name).length)) := by
  refine ⟨rfl, fun entries => ?_, fun name => ?_⟩
  · refine ⟨_, rfl, ?_, ?_⟩
    · exact List.sorted_insertionSort LexLeR _
    · exact List.perm_insertionSort LexLeR _
  · refine ⟨⟨name.dropWhile Char.isDigit, (List.takeWhile_append_dropWhile _ _).symm⟩, ?_, ?_⟩
    · exact List.all_eq_true.mpr fun x hx => List.mem_takeWhile_imp hx
    · intro p t heq hdig
      rw [migrationVersion, heq]
      exact takeWhile_longest Char.isDigit p t hdig

/-- Helper for C8: a wildcard token is never the empty string. -/
theorem wildcardToken_not_empty (k : Str) : (wildcardToken k).isEmpty = false := by
  simp [wildcardToken]

/-- Helper for C8: for a single wildcard entry, the sequential ReplaceAll
scan and the simultaneous single-pass replacement coincide step by step. -/
theorem replaceAllGo_eq_specGo (k v : Str) :
    ∀ (fuel : Nat) (s : Str),
      replaceAllGo (wildcardToken k) v fuel s =
        specSimultaneousGo ((k, v) :: []) fuel s := by
  intro fuel
  induction fuel with
  | zero => intro s; cases s <;> rfl
  | succ n ih =>
    intro s
    cases s with
    | nil => rfl
    | cons c r =>
      simp only [replaceAllGo, specSimultaneousGo, List.find?_cons, List.find?_nil,
        wildcardToken_not_empty, Bool.not_false, Bool.true_and]
      cases hdec : decide ((c :: r).take (wildcardToken k).length = wildcardToken k) with
      | true => simp [hdec, ih]
      | false => simp [hdec, ih]

/-- C8 (amended): with the wildcards-enabled flag false, or with an empty
mapping, ContentsReplaced returns the contents unchanged; with the flag
true it applies ReplaceAll successively per entry in iteration order, which
for a single-entry mapping agrees with the simultaneous replacement of
every literal token of the key by its value. -/
theorem contentsReplaced_spec :
    (∀ (m : Migration) (w : Wildcards), contentsReplaced m w false = m.contents) ∧
    (∀ m : Migration, contentsReplaced m [] true = m.contents) ∧
    (∀ (m : Migration) (k v : Str),
      contentsReplaced m ((k, v) :: []) true =
        specSimultaneousReplace ((k, v) :: []) m.contents) := by
  refine ⟨fun m w => rfl, fun m => rfl, fun m k v => ?_⟩
  show replaceAll m.contents (wildcardToken k) v = specSimultaneousReplace ((k, v) :: []) m.contents
  exact replaceAllGo_eq_specGo k v (m.contents.length + 1) m.contents

/-- C8 counterexample: with the mapping A to token-of-B, B to y (in that
iteration order), the chained ReplaceAll turns a lone A-token into y, while
the simultaneous replacement of the claim yields the literal B-token; the
two disagree, so the claim's simultaneous reading is false of the code. -/
theorem contentsReplaced_not_simultaneous_cex :
    contentsReplaced { contents := ("\x7b\x7bA\x7d\x7d").toList, options := [] }
        ((("A").toList, ("\x7b\x7bB\x7d\x7d").toList) :: (("B").toList, ("y").toList) :: []) true =
      ("y").toList ∧
    specSimultaneousReplace
        ((("A").toList, ("\x7b\x7bB\x7d\x7d").toList) :: (("B").toList, ("y").toList) :: [])
        (("\x7b\x7bA\x7d\x7d").toList) = ("\x7b\x7bB\x7d\x7d").toList ∧
    contentsReplaced { contents := ("\x7b\x7bA\x7d\x7d").toList, options := [] }
        ((("A").toList, ("\x7b\x7bB\x7d\x7d").toList) :: (("B").toList, ("y").toList) :: []) true ≠
      specSimultaneousReplace
        ((("A").toList, ("\x7b\x7bB\x7d\x7d").toList) :: (("B").toList, ("y").toList) :: [])
        (("\x7b\x7bA\x7d\x7d").toList) := by
  refine ⟨by decide, by decide, by decide⟩

/-- Helper for C5: a successful directive match consumes at least one
character. -/
theorem matchFrom_pos {l : Str} {n : Nat} (h : matchFrom l = some n) : 0 < n := by
  unfold matchFrom at h
  repeat' split at h
  all_goals first
    | exact Option.noConfusion h
    | (injection h with h2; omega)

/-- Helper for C5: every find of the scan lies at or after the scan start,
inside the text, at a line start, and is a non-empty range. -/
theorem findAllGo_mem (s : Str) :
    ∀ (fuel p : Nat), ∀ x ∈ findAllGo s fuel p,
      p ≤ x.1 ∧ x.1 < s.length ∧ lineStartB s x.1 = true ∧ x.1 < x.2 := by
  intro fuel
  induction fuel with
  | zero => intro p x hx; simp [findAllGo] at hx
  | succ n ih =>
    intro p x hx
    simp only [findAllGo] at hx
    by_cases hp : p < s.length
    · rw [if_pos hp] at hx
      by_cases hls : lineStartB s p = true
      · rw [if_pos hls] at hx
        cases hm : matchFrom (s.drop p) with
        | some L =>
          rw [hm] at hx
          rcases List.mem_cons.mp hx with rfl | hx
          · refine ⟨le_refl _, hp, hls, ?_⟩
            have := matchFrom_pos hm
            simp only []
            omega
          · obtain ⟨h1, h2, h3, h4⟩ := ih (p + L) x hx
            exact ⟨by omega, h2, h3, h4⟩
        | none =>
          rw [hm] at hx
          obtain ⟨h1, h2, h3, h4⟩ := ih (p + 1) x hx
          exact ⟨by omega, h2, h3, h4⟩
      · rw [if_neg hls] at hx
        obtain ⟨h1, h2, h3, h4⟩ := ih (p + 1) x hx
        exact ⟨by omega, h2, h3, h4⟩
    · rw [if_neg hp] at hx
      simp at hx

/-- Helper for C5: the finds are strictly increasing in their start
positions. -/
theorem findAllGo_pairwise (s : Str) :
    ∀ (fuel p : Nat), (findAllGo s fuel p).Pairwise fun a b => a.1 < b.1 := by
  intro fuel
  induction fuel with
  | zero => intro p; simp [findAllGo]
  | succ n ih =>
    intro p
    simp only [findAllGo]
    by_cases hp : p < s.length
    · rw [if_pos hp]
      by_cases hls : lineStartB s p = true
      · rw [if_pos hls]
        cases hm : matchFrom (s.drop p) with
        | some L =>
          refine List.pairwise_cons.mpr ⟨?_, ih (p + L)⟩
          intro b hb
          obtain ⟨h1, _, _, _⟩ := findAllGo_mem s n (p + L) b hb
          have := matchFrom_pos hm
          omega
        | none => exact ih (p + 1)
      · rw [if_neg hls]; exact ih (p + 1)
    · rw [if_neg hp]; exact List.Pairwise.nil

/-- Helper for C5: the finds of a text lie inside it at line starts. -/
theorem findAll_mem (s : Str) :
    ∀ x ∈ findAll s, x.1 < s.length ∧ lineStartB s x.1 = true := fun x hx =>
  ⟨(findAllGo_mem s (s.length + 1) 0 x hx).2.1,
   (findAllGo_mem s (s.length + 1) 0 x hx).2.2.1⟩

/-- Helper for C5: the finds of a text have strictly increasing starts. -/
theorem findAll_pairwise (s : Str) :
    (findAll s).Pairwise fun a b => a.1 < b.1 :=
  findAllGo_pairwise s (s.length + 1) 0

/-- Helper for C5: dropping p is slicing out the range p to q and dropping
from q. -/
theorem ext_drop (s : Str) (p q : Nat) (hpq : p ≤ q) (hq : q ≤ s.length) :
    s.drop p = ext s p q ++ s.drop q := by
  unfold ext
  conv_lhs => rw [← List.take_append_drop q s]
  rw [List.drop_append_eq_append_drop]
  have hlen : (s.take q).length = q := by
    rw [List.length_take]; omega
  rw [hlen, Nat.sub_eq_zero_of_le hpq, List.drop_zero]

/-- Helper for C5: joinNl of a list with at least two blocks inserts one
newline after the first block. -/
theorem joinNl_cons (a : Str) (M : List Str) (h : M ≠ []) :
    joinNl (a :: M) = a ++ '\n' :: joinNl M := by
  cases M with
  | nil => exact absurd rfl h
  | cons b t => rfl

/-- Helper for C5: the block slices of a sorted start list whose later
starts all follow a newline tile the text from the first start to its end,
with exactly the single newline before each later start omitted from the
blocks and restored by joinNl. -/
theorem blocksCover (s : Str) :
    ∀ (l : List Nat) (p : Nat), p ≤ s.length →
      (∀ q ∈ l, p < q) →
      l.Pairwise (· < ·) →
      (∀ q ∈ l, q < s.length ∧ s.getD (q - 1) 'x' = '\n') →
      joinNl ((mkBlocks s.length (p :: l)).map fun b => ext s b.1 b.2) = s.drop p := by
  intro l
  induction l with
  | nil =>
    intro p _ _ _ _
    show ext s p s.length = s.drop p
    unfold ext
    rw [List.take_length]
  | cons q t ih =>
    intro p hp hlt hpw hq
    have hq1 : q < s.length := (hq q (List.mem_cons_self q t)).1
    have hq2 : s.getD (q - 1) 'x' = '\n' := (hq q (List.mem_cons_self q t)).2
    have hpq : p < q := hlt q (List.mem_cons_self q t)
    show joinNl (((p, q - 1) :: mkBlocks s.length (q :: t)).map fun b => ext s b.1 b.2) = s.drop p
    rw [List.map_cons, joinNl_cons]
    · have hrec : joinNl ((mkBlocks s.length (q :: t)).map fun b => ext s b.1 b.2) = s.drop q := by
        apply ih q (le_of_lt hq1)
        · intro r hr
          exact (List.pairwise_cons.mp hpw).1 r hr
        · exact (List.pairwise_cons.mp hpw).2
        · intro r hr
          exact hq r (List.mem_cons_of_mem q hr)
      rw [hrec]
      have hdrop : s.drop p = ext s p (q - 1) ++ s.drop (q - 1) :=
        ext_drop s p (q - 1) (by omega) (by omega)
      have hsplit : s.drop (q - 1) = s.getD (q - 1) 'x' :: s.drop q := by
        have hlt2 : q - 1 < s.length := by omega
        rw [List.drop_eq_getElem_cons hlt2]
        congr 1
        · exact (List.getD_eq_getElem s 'x' hlt2).symm
        · congr 1
          omega
      rw [hdrop, hsplit, hq2]
    · cases t <;> simp [mkBlocks]

/-- C5 (amended): for every migration text the parser accepts, the lines
before the first directive are each empty or a comment, and the prefix
followed by the block contents joined with a single newline between
consecutive blocks reconstructs the whole text: each inner block stops one
character short of the newline that precedes the next directive, and that
newline belongs to no block. -/
theorem parse_blocks_cover (s : Str)
    (h : (parseMigrationContents s).isOk = true) :
    (∀ l ∈ linesOf (prefixText s), isEmptyLine l = true ∨ isCommentLine l = true) ∧
    prefixText s ++ joinNl (blockTexts s) = s := by
  obtain ⟨p0, e0, tail, hfa⟩ : ∃ p0 e0 tail, findAll s = (p0, e0) :: tail := by
    cases hfa : findAll s with
    | nil =>
      simp [parseMigrationContents, hfa, Except.isOk, Except.toBool] at h
    | cons f t =>
      obtain ⟨a, b⟩ := f
      exact ⟨a, b, t, rfl⟩
  have hstmt : statementsPrecedeMigrateBlocks s p0 = false := by
    simp only [parseMigrationContents, hfa, List.map_cons] at h
    cases hcl : classifyGo s (mkBlocks s.length (p0 :: tail.map Prod.fst))
        newMigration newMigration newMigration newMigration with
    | error e =>
      simp [hcl, Except.isOk, Except.toBool] at h
    | ok r =>
      obtain ⟨up, down, us, ds⟩ := r
      simp only [hcl] at h
      by_cases hup : up.contents = []
      · simp [hup, Except.isOk, Except.toBool] at h
      · rw [if_neg hup] at h
        by_cases hs : statementsPrecedeMigrateBlocks s p0 = true
        · simp [hs, Except.isOk, Except.toBool] at h
        · simpa using hs
  have hpt : prefixText s = s.take p0 := by
    rw [prefixText, hfa]
    rfl
  have hpw : ((p0, e0) :: tail).Pairwise (fun a b => a.1 < b.1) := by
    rw [← hfa]
    exact findAll_pairwise s
  have hels : ∀ x ∈ (p0, e0) :: tail, x.1 < s.length ∧ lineStartB s x.1 = true := by
    intro x hx
    exact findAll_mem s x (by rw [hfa]; exact hx)
  constructor
  · intro l hl
    rw [hpt] at hl
    unfold statementsPrecedeMigrateBlocks at hstmt
    have h3 := List.any_eq_false.mp hstmt l hl
    by_cases he : isEmptyLine l = true
    · exact Or.inl he
    · by_cases hc : isCommentLine l = true
      · exact Or.inr hc
      · exfalso
        apply h3
        rw [Bool.not_eq_true] at he hc
        rw [he, hc]
        rfl
  · have hbt : blockTexts s =
        (mkBlocks s.length (p0 :: tail.map Prod.fst)).map fun b => ext s b.1 b.2 := by
      rw [blockTexts, blockSpans, hfa]
      rfl
    rw [hpt, hbt]
    rw [blocksCover s (tail.map Prod.fst) p0 ?_ ?_ ?_ ?_]
    · exact List.take_append_drop p0 s
    · exact le_of_lt (hels (p0, e0) (List.mem_cons_self _ _)).1
    · intro q hq
      obtain ⟨x, hx, rfl⟩ := List.mem_map.mp hq
      exact (List.pairwise_cons.mp hpw).1 x hx
    · exact List.Pairwise.map _ (fun a b hab => hab) (List.pairwise_cons.mp hpw).2
    · intro q hq
      obtain ⟨x, hx, rfl⟩ := List.mem_map.mp hq
      have hin := hels x (List.mem_cons_of_mem _ hx)
      have hne : ¬(x.1 = 0) := by
        have := (List.pairwise_cons.mp hpw).1 x hx
        omega
      refine ⟨hin.1, ?_⟩
      have hls := hin.2
      unfold lineStartB at hls
      simpa [hne] using hls

/-- C5 counterexample: on an accepted two-block file, the concatenation of
the prefix (empty here) and the raw block contents is not the whole text:
the newline before the second directive belongs to no block, so the union
of block ranges plus prefix lines does not equal the file. -/
theorem parse_blocks_not_whole_cex :
    (parseMigrationContents (("-- migrate:up\nA\n-- migrate:down\nB").toList)).isOk = true ∧
    prefixText (("-- migrate:up\nA\n-- migrate:down\nB").toList) ++
        (blockTexts (("-- migrate:up\nA\n-- migrate:down\nB").toList)).flatten ≠
      ("-- migrate:up\nA\n-- migrate:down\nB").toList := by
  refine ⟨by decide, by decide⟩

/-- C5 witness: a concrete accepted file with a comment prefix is exactly
reassembled from its prefix and its newline-joined blocks. -/
theorem parse_blocks_cover_witness :
    (∀ l ∈ linesOf (prefixText (("-- hi\n-- migrate:up\nA\n-- migrate:down\nB\n").toList)),
      isEmptyLine l = true ∨ isCommentLine l = true) ∧
    prefixText (("-- hi\n-- migrate:up\nA\n-- migrate:down\nB\n").toList) ++
        joinNl (blockTexts (("-- hi\n-- migrate:up\nA\n-- migrate:down\nB\n").toList)) =
      ("-- hi\n-- migrate:up\nA\n-- migrate:down\nB\n").toList :=
  parse_blocks_cover (("-- hi\n-- migrate:up\nA\n-- migrate:down\nB\n").toList) (by decide)

/-- C2 witness: a concrete divergent state, primary latest 001 with its
file present, replica latest 000. -/
theorem rollback_divergent_slave_no_mutation_witness :
    rollbackModel (some ({ name := ("001_a.sql").toList, isDir := false } :: []))
      (fun _ => []) (some (("001").toList)) (some (("000").toList) :: []) =
      (Except.error MigErr.noRollbackSlaves, []) :=
  rollback_divergent_slave_no_mutation _ _ _ _ (("000").toList) (("001_a.sql").toList)
    (by decide) (by decide) (by decide) (by decide)

end Dbmate
